import Mathlib

/-!
Verification of the neighbor-graph and diffusion-geometry engine of
`scanpy/neighbors/__init__.py`.

The Python source is shallowly embedded: numpy arrays become functions out of
`Fin n` or lists, float data is modelled by exact rationals (every float is a
rational), real-valued transcendental computations (`np.sqrt`, `np.exp`) are
modelled over `ℝ`, `np.inf` is modelled by `⊤` in `ℝ≥0∞`, and Python
exceptions become `Except` / `Option` results.
-/

open scoped ENNReal

/-! ### Generic helpers -/

/-- Pointwise update of a two-argument function, modelling a single in-place
array assignment `A[a, b] = v`. -/
def updFn {n : ℕ} {α : Type} (f : Fin n → Fin n → α) (a b : Fin n) (v : α) :
    Fin n → Fin n → α :=
  fun x y => if x = a ∧ y = b then v else f x y

/-- Model of `np.median` on a one-dimensional array: sort, then take the middle
element (odd length) or the mean of the two middle elements (even length). -/
def npMedian (l : List ℚ) : ℚ :=
  let s := List.insertionSort (· ≤ ·) l
  if l.length % 2 = 1 then s.getD (l.length / 2) 0
  else (s.getD (l.length / 2 - 1) 0 + s.getD (l.length / 2) 0) / 2

/-! ### C10: `neighbors` / `Neighbors.compute_neighbors` clamp of `n_neighbors`

From `compute_neighbors`:
`if n_neighbors > self._adata.shape[0]: n_neighbors = 1 + int(0.5*self._adata.shape[0])`
(for a nonnegative integer count, `int(0.5*m)` is `m / 2` in natural division),
while the top-level `neighbors` function writes
`adata.uns['neighbors']['params'] = \x7b'n_neighbors': n_neighbors, ...\x7d`
using its own unmodified argument. -/

/-- Effective neighbor count used by `Neighbors.compute_neighbors` for the
search and the output shapes. -/
def computeNeighborsEffectiveK (nObs nNeighbors : ℕ) : ℕ :=
  if nObs < nNeighbors then 1 + nObs / 2 else nNeighbors

/-- The two numbers produced by one call of the top-level `neighbors` function:
the `n_neighbors` value stored in the params record of `.uns['neighbors']`,
and the effective neighbor count used for the search and the output shapes. -/
structure NeighborsCallRecord where
  params_n_neighbors : ℕ
  effective_n_neighbors : ℕ
  deriving DecidableEq

/-- Model of the top-level `neighbors` call: the params record keeps the raw
argument, the computation uses the clamped value. -/
def neighborsCall (nObs nNeighbors : ℕ) : NeighborsCallRecord :=
  { params_n_neighbors := nNeighbors
    effective_n_neighbors := computeNeighborsEffectiveK nObs nNeighbors }

/-! ### C7: state errors for `Neighbors.transitions` and `Neighbors.compute_eigen`

`Neighbors.__init__` sets `self._transitions_sym = None` and does not create a
`Z` attribute at all; `compute_transitions` is the only place `self.Z` is
assigned.  The `transitions` property evaluates `issparse(self.Z)` first, so on
a fresh object it raises `AttributeError` for the missing attribute `Z`.
`compute_eigen` explicitly raises
`ValueError('Run `.compute_transitions` first.')` when `_transitions_sym` is
`None`. -/

/-- Python exception outcomes relevant to the state-order errors. -/
inductive PyError where
  | attributeError (attr : String)
  | valueError (msg : String)
  | typeError (msg : String)
  deriving DecidableEq

/-- The mutable attributes of a `Neighbors` object involved in the
transition-matrix state machine.  A `none` field models an attribute that is
`None` (`transitions_sym`) or absent (`Z`); `M` abstracts the matrix type. -/
structure NeighborsTransState (M : Type) where
  Z : Option M
  transitions_sym : Option M

/-- A freshly constructed `Neighbors` object: `_transitions_sym` is `None` and
no attribute `Z` exists. -/
def freshNeighborsTransState (M : Type) : NeighborsTransState M :=
  { Z := none, transitions_sym := none }

/-- Model of the `Neighbors.transitions` property, parameterized by the
elementwise-inverse and matrix-product operations used in
`self.Z @ self.transitions_sym @ Zinv`.  Reading `self.Z` happens first
(inside `issparse(self.Z)`), so a missing `Z` raises an `AttributeError`;
a `None` value of `_transitions_sym` would only fail later, inside `@`. -/
def NeighborsTransState.transitions {M : Type} (inv : M → M) (mul : M → M → M)
    (s : NeighborsTransState M) : Except PyError M :=
  match s.Z with
  | none => .error (.attributeError "Z")
  | some z =>
    match s.transitions_sym with
    | none => .error (.typeError "unsupported operand type for matmul: NoneType")
    | some t => .ok (mul (mul z t) (inv z))

/-- Model of the guard at the top of `Neighbors.compute_eigen`:
`if self._transitions_sym is None: raise ValueError('Run `.compute_transitions` first.')`.
Only the guard is modelled; the eigendecomposition itself is external. -/
def NeighborsTransState.compute_eigen {M : Type} (s : NeighborsTransState M) :
    Except PyError Unit :=
  if s.transitions_sym.isNone then
    .error (.valueError "Run `.compute_transitions` first.")
  else .ok ()

/-! ### C8: RP-forest flatten / reconstruct

`_make_forest_dict` flattens the four tree properties into
`\x7bstart-offsets, concatenated data\x7d` pairs; tree rows are abstracted by an
arbitrary element type `α`.  `_rp_forest_generate` sets
`props = FlatTree._fields[0]`, which is the *string* `'hyperplanes'`, and then
iterates `for prop in props`, i.e. over the characters of that string; the
dictionary lookups `rp_forest_dict[prop]` therefore use one-character keys and
raise `KeyError`. -/

/-- A random-projection tree, each of the four array properties abstracted as a
list of rows. -/
structure FlatTreeL (α : Type) where
  hyperplanes : List α
  offsets : List α
  children : List α
  indices : List α

/-- Start offsets of consecutive blocks of the given sizes, as built by the
loop `d[prop]['start'][i] = start; start = end` (one offset per tree, no final
sentinel). -/
def blockStarts (sizes : List ℕ) : List ℕ :=
  (sizes.foldl (fun acc s => (acc.1 ++ [acc.2], acc.2 + s)) (([] : List ℕ), 0)).1

/-- Flatten one property of a forest into its start-offsets and concatenated
data. -/
def flattenProp {α : Type} (get : FlatTreeL α → List α) (forest : List (FlatTreeL α)) :
    List ℕ × List α :=
  (blockStarts (forest.map fun t => (get t).length), forest.flatMap get)

/-- Model of `_make_forest_dict`: a dictionary from property names to
`(start, data)` pairs; lookups of unknown keys return `none` (`KeyError`). -/
def makeForestDict {α : Type} (forest : List (FlatTreeL α)) :
    String → Option (List ℕ × List α) := fun s =>
  if s = "hyperplanes" then some (flattenProp (fun t => t.hyperplanes) forest)
  else if s = "offsets" then some (flattenProp (fun t => t.offsets) forest)
  else if s = "children" then some (flattenProp (fun t => t.children) forest)
  else if s = "indices" then some (flattenProp (fun t => t.indices) forest)
  else none

/-- Model of `_rp_forest_generate`.  `props` is `FlatTree._fields[0]`, the
string `"hyperplanes"`; iterating over it yields its characters, which are then
used as dictionary keys.  A failed lookup is a `KeyError`, returned as
`Except.error` with the offending key.  Each reconstructed tree is the list of
its four sliced property arrays. -/
def rpForestGenerate {α : Type} (d : String → Option (List ℕ × List α)) :
    Except String (List (List (List α))) := do
  let props : String := "hyperplanes"
  let hp ← match d props with
    | none => Except.error props
    | some p => Except.ok p
  let numTrees := hp.1.length - 1
  let trees ← (List.range numTrees).mapM (fun i =>
    props.toList.mapM (fun c =>
      match d (String.singleton c) with
      | none => Except.error (String.singleton c)
      | some (st, dat) =>
        Except.ok ((dat.drop (st.getD i 0)).take (st.getD (i + 1) 0 - st.getD i 0))))
  let lastTree ← props.toList.mapM (fun c =>
    match d (String.singleton c) with
    | none => Except.error (String.singleton c)
    | some (st, dat) => Except.ok (dat.drop (st.getD numTrees 0)))
  return trees ++ [lastTree]

/-- A concrete two-tree forest over natural-number rows, used to exercise the
round trip. -/
def sampleForest : List (FlatTreeL ℕ) :=
  [ { hyperplanes := [1, 2], offsets := [3], children := [4, 5], indices := [6] },
    { hyperplanes := [7], offsets := [8, 9], children := [10], indices := [11, 12] } ]

/-! ### C9: `Neighbors._set_iroot_via_xroot`

The linear scan keeps `dsqroot = 1e10` as the initial best squared distance and
`iroot = 0` as the initial index, improves on strict decrease, and breaks once
`np.sqrt(dsqroot) < 1e-10`.  Since `dsqroot` is a sum of squares and hence
nonnegative, `np.sqrt(dsqroot) < 1e-10` is equivalent to `dsqroot < 1e-20`,
which is how the break condition is written here. -/

/-- Squared Euclidean distance of observation `i` to the reference vector
`xroot`, i.e. `diff = X[i, :] - xroot; dsq = diff @ diff`. -/
def xrootDsq {n d : ℕ} (X : Fin n → Fin d → ℚ) (xroot : Fin d → ℚ) (i : Fin n) : ℚ :=
  ∑ j, (X i j - xroot j) ^ 2

/-- The scan loop of `_set_iroot_via_xroot` over the remaining observation
indices, carrying the current best squared distance and best index. -/
def irootGo {n : ℕ} (dsq : Fin n → ℚ) : List (Fin n) → ℚ → Fin n → Fin n
  | [], _, ibest => ibest
  | i :: rest, dbest, ibest =>
    if dsq i < dbest then
      if dsq i < 1e-20 then i else irootGo dsq rest (dsq i) i
    else irootGo dsq rest dbest ibest

/-- Model of `_set_iroot_via_xroot` (on a data matrix with at least one row,
matching feature dimension enforced by the types): scan all observations in
order starting from `dsqroot = 1e10`, `iroot = 0`. -/
def setIrootViaXroot {n d : ℕ} (X : Fin (n + 1) → Fin d → ℚ) (xroot : Fin d → ℚ) :
    Fin (n + 1) :=
  irootGo (xrootDsq X xroot) (List.finRange (n + 1)) 1e10 0

/-- Two observations whose squared distances to the origin are both at least
`1e10`: the scan never improves on its initial state. -/
def c9X : Fin 2 → Fin 1 → ℚ := ![![200000], ![100000]]

/-- Reference vector for the `c9X` counterexample. -/
def c9xroot : Fin 1 → ℚ := ![0]

/-- Three one-dimensional observations used for the C9 witness. -/
def c9wX : Fin 3 → Fin 1 → ℚ := ![![3], ![1], ![2]]

/-- Reference vector for the C9 witness. -/
def c9wroot : Fin 1 → ℚ := ![0]

/-! ### C5/C6/C1 shared: sparse distance matrices

A sparse `n × n` matrix is modelled by its stored-column pattern
`pattern : Fin n → List (Fin n)` together with a total value function
`D : Fin n → Fin n → ℚ` (entries outside the pattern are zero). -/

/-- Model of `D[i].nonzero()` on one row of a sparse matrix: the stored columns
whose value is actually nonzero (explicit zeros are skipped, hence the source
comment about true and spurious zeros). -/
def sparseRowNbrs {n : ℕ} (pattern : Fin n → List (Fin n)) (D : Fin n → Fin n → ℚ)
    (i : Fin n) : List (Fin n) :=
  (pattern i).filter fun j => decide (D i j ≠ 0)

/-- One row of `get_indices_distances_from_sparse_matrix`.  The self index goes
to column 0 with distance 0.  If the row has more than `k-1` nonzero entries,
the `k-1` smallest are kept (`np.argsort` ties resolved by original position);
if it has exactly `k-1`, all are kept; numpy broadcasting additionally lets a
single entry fill all `k-1` remaining slots; any other under-complete row makes
the row assignment `indices[i, 1:] = neighbors[1]` fail with a broadcast error,
modelled as `none`.  Indices are emitted as integers (the numpy arrays are
integer typed); no `-1` is ever written. -/
def get_indices_row {n : ℕ} (pattern : Fin n → List (Fin n)) (D : Fin n → Fin n → ℚ)
    (k : ℕ) (i : Fin n) : Option (List ℤ × List ℚ) :=
  let nbrs := sparseRowNbrs pattern D i
  let n1 := k - 1
  if n1 < nbrs.length then
    let sel := (List.insertionSort (fun a b => D i a ≤ D i b) nbrs).take n1
    some ((i.val : ℤ) :: sel.map (fun j => (j.val : ℤ)), 0 :: sel.map (fun j => D i j))
  else if nbrs.length = n1 then
    some ((i.val : ℤ) :: nbrs.map (fun j => (j.val : ℤ)), 0 :: nbrs.map (fun j => D i j))
  else
    match nbrs with
    | [j] => some ((i.val : ℤ) :: List.replicate n1 (j.val : ℤ),
                   0 :: List.replicate n1 (D i j))
    | _ => none

/-- Model of `get_indices_distances_from_sparse_matrix`: all rows extracted, or
failure if any row assignment fails. -/
def get_indices_distances_from_sparse_matrix {n : ℕ} (pattern : Fin n → List (Fin n))
    (D : Fin n → Fin n → ℚ) (k : ℕ) : Option (Fin n → List ℤ × List ℚ) :=
  if h : ∀ i, (get_indices_row pattern D k i).isSome then
    some (fun i => (get_indices_row pattern D k i).get (h i))
  else none

/-- Sparse pattern for the C5 counterexample: each of the two points has the
other as its only stored neighbor. -/
def c5pat : Fin 2 → List (Fin 2) := ![[1], [0]]

/-- Distance values for the C5 counterexample. -/
def c5D : Fin 2 → Fin 2 → ℚ := ![![0, 5], ![5, 0]]

/-- Expected extraction output for the C5 counterexample with `k = 3`: each row
is under-complete (one nonzero entry where `k - 1 = 2` are requested), and
numpy broadcasting replicates the single entry; no `-1` padding appears. -/
def c5e : Fin 2 → List ℤ × List ℚ :=
  ![([0, 1, 1], [0, 5, 5]), ([1, 0, 0], [0, 5, 5])]

/-! ### C6: indices/distances → sparse matrix

Both builders call `eliminate_zeros()` on the assembled matrix, which removes
every zero-valued stored entry — including the slot that
`get_sparse_matrix_from_indices_distances_umap` explicitly sets to `0.0` for
the self column.  A position is stored in the final csr matrix iff some slot
contributes a nonzero value there; its value is the sum of the contributing
slots (coo duplicate assembly). -/

/-- Stored-entry predicate of the csr matrix built by
`get_sparse_matrix_from_indices_distances_umap`: slot `(r, j)` contributes at
column `knn_indices[r, j]` the value `0.0` if that column equals `r` and
`knn_dists[r, j]` otherwise; `-1` slots are skipped, and `eliminate_zeros`
removes all zero-valued entries. -/
def umapSparseStored {n k : ℕ} (ki : Fin n → Fin k → ℤ) (kd : Fin n → Fin k → ℚ)
    (r c : Fin n) : Prop :=
  ∃ j, ki r j = ((c : ℕ) : ℤ) ∧ (if ki r j = ((r : ℕ) : ℤ) then (0 : ℚ) else kd r j) ≠ 0

/-- Value of the csr matrix built by
`get_sparse_matrix_from_indices_distances_umap` at `(r, c)`: the sum of the
contributing slots (duplicates are summed by coo assembly; zero contributions
do not change the sum). -/
def umapSparseVal {n k : ℕ} (ki : Fin n → Fin k → ℤ) (kd : Fin n → Fin k → ℚ)
    (r c : Fin n) : ℚ :=
  ∑ j ∈ Finset.univ.filter (fun j => ki r j = ((c : ℕ) : ℤ)),
    (if ki r j = ((r : ℕ) : ℤ) then (0 : ℚ) else kd r j)

/-- Stored-entry predicate of the csr matrix built by
`get_sparse_matrix_from_indices_distances_numpy`: the data row is
`distances[i]` verbatim and `eliminate_zeros` removes all zero-valued
entries. -/
def numpySparseStored {n k : ℕ} (indices : Fin n → Fin k → Fin n)
    (dists : Fin n → Fin k → ℚ) (r c : Fin n) : Prop :=
  ∃ j, indices r j = c ∧ dists r j ≠ 0

/-- knn indices for the C6 counterexample. -/
def c6ki : Fin 2 → Fin 2 → ℤ := ![![0, 1], ![1, 0]]

/-- knn distances for the C6 counterexample (self distance 0 in column 0). -/
def c6kd : Fin 2 → Fin 2 → ℚ := ![![0, 5], ![0, 7]]

/-- knn indices for the numpy-variant C6 counterexample. -/
def c6ki' : Fin 2 → Fin 2 → Fin 2 := ![![0, 1], ![1, 0]]

/-! ### C2: `Neighbors.compute_transitions` and the `transitions` property

`compute_transitions` with `density_normalize` builds
`q = W.sum(axis=0)`, `Q = diag(1/q)`, `K = Q @ W @ Q`, then
`z = sqrt(K.sum(axis=0))`, `Z = diag(1/z)`, `transitions_sym = Z @ K @ Z`.
The `transitions` property computes `Zinv = diag(1/diag(Z))` and returns
`Z @ transitions_sym @ Zinv`.  `sum(axis=0)` sums over the first axis, i.e.
per-column sums. -/

/-- Column sums `q = np.asarray(W.sum(axis=0))` of the connectivity matrix:
the degree / sampling-density estimate. -/
noncomputable def transitionsQvec {n : ℕ} (W : Matrix (Fin n) (Fin n) ℝ) : Fin n → ℝ :=
  fun j => ∑ i, W i j

/-- The density-normalized kernel `K = Q @ W @ Q` (or `K = W` when density
normalization is off). -/
noncomputable def transitionsKmat {n : ℕ} (dn : Bool) (W : Matrix (Fin n) (Fin n) ℝ) :
    Matrix (Fin n) (Fin n) ℝ :=
  if dn then
    Matrix.diagonal (fun i => 1 / transitionsQvec W i) * W *
      Matrix.diagonal (fun i => 1 / transitionsQvec W i)
  else W

/-- Square roots of the per-column sums of a kernel matrix,
`np.sqrt(K.sum(axis=0))`. -/
noncomputable def colSqrt {n : ℕ} (K : Matrix (Fin n) (Fin n) ℝ) : Fin n → ℝ :=
  fun j => Real.sqrt (∑ i, K i j)

/-- The vector `z = np.sqrt(K.sum(axis=0))`. -/
noncomputable def transitionsZvec {n : ℕ} (dn : Bool) (W : Matrix (Fin n) (Fin n) ℝ) : Fin n → ℝ :=
  colSqrt (transitionsKmat dn W)

/-- The diagonal normalization `Z = diag(1/z)`. -/
noncomputable def transitionsZ {n : ℕ} (dn : Bool) (W : Matrix (Fin n) (Fin n) ℝ) :
    Matrix (Fin n) (Fin n) ℝ :=
  Matrix.diagonal (fun i => 1 / transitionsZvec dn W i)

/-- The symmetrized transition operator `transitions_sym = Z @ K @ Z`. -/
noncomputable def transitionsSym {n : ℕ} (dn : Bool) (W : Matrix (Fin n) (Fin n) ℝ) :
    Matrix (Fin n) (Fin n) ℝ :=
  transitionsZ dn W * transitionsKmat dn W * transitionsZ dn W

/-- The `transitions` property: `Zinv = np.diag(1./np.diag(Z))` and
`Z @ transitions_sym @ Zinv`. -/
noncomputable def transitionsMat {n : ℕ} (dn : Bool) (W : Matrix (Fin n) (Fin n) ℝ) :
    Matrix (Fin n) (Fin n) ℝ :=
  transitionsZ dn W * transitionsSym dn W *
    Matrix.diagonal (fun i => 1 / (1 / transitionsZvec dn W i))

/-- Concrete symmetric connectivity matrix with positive degrees, for the C2
witness. -/
noncomputable def c2W : Matrix (Fin 2) (Fin 2) ℝ :=
  Matrix.of (fun i j => if i = j then 1 else 1 / 2)

/-! ### C3/C4: `Neighbors._get_dpt_row` and `Neighbors._set_pseudotime`

`_get_dpt_row(i)` accumulates, over all eigencomponents `l`,
`(ev[l]/(1-ev[l]) * (psi[i,l] - psi[:,l]))**2` for eigenvalues below `0.9994`
and `(psi[i,l] - psi[:,l])**2` for eigenvalues at or above `0.9994`, masks
entries of other connected components to `np.inf` when more than one component
exists, and finally takes `np.sqrt` (with `sqrt(inf) = inf`).  Eigendata is
float data, modelled by rationals; the row entries live in `ℝ≥0∞` with `⊤`
playing the role of `np.inf`.  `_set_pseudotime` divides the root row by the
maximum over its finite entries. -/

/-- The squared diffusion distance accumulated by `_get_dpt_row` before the
component mask and the square root. -/
def dptRowVal {n m : ℕ} (ev : Fin m → ℚ) (psi : Fin n → Fin m → ℚ) (i j : Fin n) : ℚ :=
  (∑ l ∈ Finset.univ.filter (fun l => ev l < 0.9994),
      (ev l / (1 - ev l) * (psi i l - psi j l)) ^ 2) +
  (∑ l ∈ Finset.univ.filter (fun l => 0.9994 ≤ ev l), (psi i l - psi j l) ^ 2)

/-- One entry of the diffusion-distance row of `_get_dpt_row`: `⊤` when more
than one connected component exists and `j` lies in a different component than
`i`, else the square root of the accumulated value. -/
noncomputable def dptEntry {n m : ℕ} (nComp : ℕ) (labels : Fin n → ℕ) (ev : Fin m → ℚ)
    (psi : Fin n → Fin m → ℚ) (i j : Fin n) : ℝ≥0∞ :=
  if 1 < nComp ∧ labels j ≠ labels i then ⊤
  else ENNReal.ofReal (Real.sqrt ((dptRowVal ev psi i j : ℚ) : ℝ))

open scoped Classical in
/-- The maximum of the finite entries of the root row,
`np.max(self.pseudotime[self.pseudotime < np.inf])`. -/
noncomputable def dptMaxFin {n m : ℕ} (nComp : ℕ) (labels : Fin n → ℕ) (ev : Fin m → ℚ)
    (psi : Fin n → Fin m → ℚ) (iroot : Fin n) : ℝ≥0∞ :=
  (Finset.univ.filter (fun j => dptEntry nComp labels ev psi iroot j < ⊤)).sup
    (dptEntry nComp labels ev psi iroot)

/-- `_set_pseudotime`: the root row divided by the maximum of its finite
entries. -/
noncomputable def pseudotime {n m : ℕ} (nComp : ℕ) (labels : Fin n → ℕ) (ev : Fin m → ℚ)
    (psi : Fin n → Fin m → ℚ) (iroot j : Fin n) : ℝ≥0∞ :=
  dptEntry nComp labels ev psi iroot j / dptMaxFin nComp labels ev psi iroot

/-- Eigenvalues for the C3/C4 witnesses. -/
def dptWev : Fin 1 → ℚ := ![1/2]

/-- Eigenbasis for the C3/C4 witnesses. -/
def dptWpsi : Fin 2 → Fin 1 → ℚ := ![![0], ![1]]

/-- Two-component labels for the C3 witness. -/
def c3lab : Fin 2 → ℕ := ![0, 1]

/-- One-component labels for the C4 witness. -/
def c4lab : Fin 2 → ℕ := ![0, 0]

/-! ### C1: `Neighbors._compute_connectivities_diffmap`

The adaptive-bandwidth Gaussian kernel.  Squared distances `Dsq`, neighbor
indices and squared distances per row (dropping column 0, the 0th neighbor),
per-point bandwidths `sigmas_sq` (row median in the knn case, last squared
distance over 4 in the dense non-knn case), the weight
`W[i,j] = sqrt(2 sigma_i sigma_j / (sigma_i^2+sigma_j^2)) *
exp(-Dsq[i,j]/(sigma_i^2+sigma_j^2))`, and the mask-borrowing symmetrization
`if i not in set(indices[j]): W[j,i] = W[i,j]`.  The dense path additionally
builds a boolean mask (or thresholds at `1e-14` when not restricted to knn);
the sparse path computes weights on the stored pattern and borrows on a lil
copy.  Loops become left folds over the row lists. -/

/-- The edge weight of the adaptive Gaussian kernel, as a function of the two
squared bandwidths and the squared distance (`sigmas = np.sqrt(sigmas_sq)`,
`Num = 2 * sigma_i * sigma_j`, `Den = sigma_i^2 + sigma_j^2`,
`W = sqrt(Num/Den) * exp(-Dsq/Den)`). -/
noncomputable def gaussWeight (ssqi ssqj dsq : ℚ) : ℝ :=
  Real.sqrt ((2 * Real.sqrt ssqi * Real.sqrt ssqj) / ((ssqi : ℝ) + (ssqj : ℝ))) *
    Real.exp (-(dsq : ℝ) / ((ssqi : ℝ) + (ssqj : ℝ)))

/-- Model of `get_indices_distances_from_dense_matrix` on one row: the `k`
columns with smallest values, sorted increasingly (`argpartition` +
`argsort`; ties, unspecified in numpy, are resolved by column index). -/
def get_indices_row_dense {n : ℕ} (Dsq : Fin n → Fin n → ℚ) (k : ℕ) (i : Fin n) :
    List (Fin n) × List ℚ :=
  let sorted := (List.insertionSort
    (fun a b => Dsq i a < Dsq i b ∨ (Dsq i a = Dsq i b ∧ a ≤ b)) (List.finRange n)).take k
  (sorted, sorted.map (fun j => Dsq i j))

/-- Squared distances `Dsq = self._distances ** 2`. -/
def denseDsq {n : ℕ} (D : Fin n → Fin n → ℚ) : Fin n → Fin n → ℚ :=
  fun i j => (D i j) ^ 2

/-- Dense-path neighbor indices after `indices = indices[:, 1:]`. -/
def denseInd {n : ℕ} (D : Fin n → Fin n → ℚ) (k : ℕ) : Fin n → List (Fin n) :=
  fun i => (get_indices_row_dense (denseDsq D) k i).1.tail

/-- Dense-path squared neighbor distances after
`distances_sq = distances_sq[:, 1:]`. -/
def denseDistSq {n : ℕ} (D : Fin n → Fin n → ℚ) (k : ℕ) : Fin n → List ℚ :=
  fun i => (get_indices_row_dense (denseDsq D) k i).2.tail

/-- Dense-path bandwidths: row median in the knn case, last entry over 4
otherwise. -/
def denseSigmasSq {n : ℕ} (D : Fin n → Fin n → ℚ) (k : ℕ) (knn : Bool) : Fin n → ℚ :=
  fun i => if knn then npMedian (denseDistSq D k i) else (denseDistSq D k i).getLastD 0 / 4

/-- Dense-path weight matrix before masking,
`W = np.sqrt(Num/Den) * np.exp(-Dsq/Den)`. -/
noncomputable def denseW {n : ℕ} (D : Fin n → Fin n → ℚ) (k : ℕ) (knn : Bool) :
    Fin n → Fin n → ℝ :=
  fun a b => gaussWeight (denseSigmasSq D k knn a) (denseSigmasSq D k knn b) (denseDsq D a b)

/-- One inner step of the dense mask-and-borrow loop at row `i`, neighbor `j`:
`if i not in set(indices[j]): W[j, i] = W[i, j]; mask[j, i] = True`. -/
def maskBorrowStepInner {n : ℕ} (ind : Fin n → List (Fin n)) (i : Fin n)
    (st : (Fin n → Fin n → ℝ) × (Fin n → Fin n → Prop)) (j : Fin n) :
    (Fin n → Fin n → ℝ) × (Fin n → Fin n → Prop) :=
  if i ∈ ind j then st
  else (updFn st.1 j i (st.1 i j), fun a b => (a = j ∧ b = i) ∨ st.2 a b)

/-- The dense mask-and-borrow loop: for each row `i`, first
`mask[i, indices[i]] = True`, then the inner borrow loop over `indices[i]`. -/
def maskBorrowFold {n : ℕ} (ind : Fin n → List (Fin n)) (W0 : Fin n → Fin n → ℝ) :
    (Fin n → Fin n → ℝ) × (Fin n → Fin n → Prop) :=
  (List.finRange n).foldl
    (fun st i =>
      (ind i).foldl (maskBorrowStepInner ind i)
        (st.1, fun a b => (a = i ∧ b ∈ ind i) ∨ st.2 a b))
    (W0, fun _ _ => False)

open scoped Classical in
/-- The dense code path of `_compute_connectivities_diffmap`
(`not issparse(self._distances)`), for both values of `self.knn`: mask and
borrow when knn, threshold at `1e-14` otherwise, then zero everything outside
the mask. -/
noncomputable def diffmapDense {n : ℕ} (D : Fin n → Fin n → ℚ) (k : ℕ) (knn : Bool) :
    Fin n → Fin n → ℝ :=
  if knn then
    let fm := maskBorrowFold (denseInd D k) (denseW D k knn)
    fun a b => if fm.2 a b then fm.1 a b else 0
  else
    fun a b => if (1e-14 : ℝ) < denseW D k knn a b then denseW D k knn a b else 0

/-- One inner step of the sparse borrow loop at row `i`, neighbor `j`:
`if i not in set(indices[j]): W[j, i] = W[i, j]`. -/
def borrowStepInner {n : ℕ} (ind : Fin n → List (Fin n)) (i : Fin n)
    (W : Fin n → Fin n → ℝ) (j : Fin n) : Fin n → Fin n → ℝ :=
  if i ∈ ind j then W else updFn W j i (W i j)

/-- The sparse borrow loop over all rows (performed on the lil copy of `W`). -/
def borrowFold {n : ℕ} (ind : Fin n → List (Fin n)) (W0 : Fin n → Fin n → ℝ) :
    Fin n → Fin n → ℝ :=
  (List.finRange n).foldl (fun W i => (ind i).foldl (borrowStepInner ind i) W) W0

/-- Interpret extracted integer neighbor indices as row indices (they are
always in range: the extraction emits casts of `Fin` values). -/
def finsOfInts (n : ℕ) (l : List ℤ) : List (Fin n) :=
  l.filterMap (fun z => if h : 0 ≤ z ∧ z.toNat < n then some ⟨z.toNat, h.2⟩ else none)

/-- Sparse-path neighbor indices after `indices = indices[:, 1:]`. -/
def sparseInd {n : ℕ} (e : Fin n → List ℤ × List ℚ) : Fin n → List (Fin n) :=
  fun i => finsOfInts n (e i).1.tail

/-- Sparse-path bandwidths `sigmas_sq = np.median(distances_sq, axis=1)` on the
extracted squared distances after dropping column 0. -/
def sparseSigmasSq {n : ℕ} (e : Fin n → List ℤ × List ℚ) : Fin n → ℚ :=
  fun i => npMedian (e i).2.tail

/-- Sparse-path weights on the stored nonzero pattern of `Dsq` (the in-place
per-row computation `W.data[...] = np.sqrt(num/den) * np.exp(-Dsq.data/den)`);
entries outside the stored pattern are zero. -/
noncomputable def sparseW0 {n : ℕ} (pattern : Fin n → List (Fin n))
    (D : Fin n → Fin n → ℚ) (e : Fin n → List ℤ × List ℚ) : Fin n → Fin n → ℝ :=
  fun a b =>
    if b ∈ pattern a then
      gaussWeight (sparseSigmasSq e a) (sparseSigmasSq e b) ((D a b) ^ 2)
    else 0

/-- The sparse weight matrix after the borrow loop, given the extraction
result `e`. -/
noncomputable def gaussSparseW {n : ℕ} (pattern : Fin n → List (Fin n))
    (D : Fin n → Fin n → ℚ) (e : Fin n → List ℤ × List ℚ) : Fin n → Fin n → ℝ :=
  borrowFold (sparseInd e) (sparseW0 pattern D e)

/-- The sparse code path of `_compute_connectivities_diffmap`
(`issparse(self._distances)`): square the stored distances, extract neighbor
indices and squared distances (which can fail, as in C5), compute the per-row
weights on the stored pattern and run the borrow loop. -/
noncomputable def diffmapSparse {n : ℕ} (pattern : Fin n → List (Fin n))
    (D : Fin n → Fin n → ℚ) (k : ℕ) : Option (Fin n → Fin n → ℝ) :=
  (get_indices_distances_from_sparse_matrix pattern (fun i j => (D i j) ^ 2) k).map
    (gaussSparseW pattern D)

/-- Symmetric distance values for the C1 witness. -/
def c1D : Fin 2 → Fin 2 → ℚ := ![![0, 1], ![1, 0]]

/-- Symmetric sparse pattern for the C1 witness. -/
def c1pat : Fin 2 → List (Fin 2) := ![[1], [0]]

/-- Extraction result on the C1 witness inputs with `k = 2`. -/
def c1e : Fin 2 → List ℤ × List ℚ :=
  ![([0, 1], [0, 1]), ([1, 0], [0, 1])]

/-! ### Theorems -/

/-- C10: when the requested `n_neighbors` exceeds `n_obs`, the effective
neighbor count used for the search and the output shapes is the clamped value
`1 + n_obs / 2`, while the params record written to `.uns['neighbors']` keeps
the original request; for `n_obs ≥ 2` the two therefore disagree. -/
theorem neighbors_clamp_records_original (nObs nNeighbors : ℕ)
    (h : nObs < nNeighbors) :
    (neighborsCall nObs nNeighbors).effective_n_neighbors = 1 + nObs / 2 ∧
    (neighborsCall nObs nNeighbors).params_n_neighbors = nNeighbors ∧
    (2 ≤ nObs →
      (neighborsCall nObs nNeighbors).params_n_neighbors ≠
        (neighborsCall nObs nNeighbors).effective_n_neighbors) := by
  refine ⟨by simp [neighborsCall, computeNeighborsEffectiveK, h], rfl, ?_⟩
  intro h2
  simp only [neighborsCall, computeNeighborsEffectiveK, if_pos h]
  have hhalf : nObs / 2 + 1 ≤ nObs := by omega
  omega

/-- C10 witness: the spec scenario `n_neighbors = 200` on `50` observations
yields an effective count of `26` and a recorded parameter of `200`. -/
theorem neighbors_clamp_records_original_witness :
    50 < 200 ∧
    ((neighborsCall 50 200).effective_n_neighbors = 1 + 50 / 2 ∧
      (neighborsCall 50 200).params_n_neighbors = 200 ∧
      (2 ≤ 50 →
        (neighborsCall 50 200).params_n_neighbors ≠
          (neighborsCall 50 200).effective_n_neighbors)) :=
  ⟨by decide, neighbors_clamp_records_original 50 200 (by decide)⟩

/-- C7 counterexample: on a fresh `Neighbors` object, reading the
`transitions` property fails with `AttributeError` for the missing attribute
`Z`, which is not the "run X first" `ValueError` the claim requires. -/
theorem transitions_before_compute_is_attribute_error :
    NeighborsTransState.transitions (M := Unit) id (fun _ _ => ())
      (freshNeighborsTransState Unit) = .error (.attributeError "Z") ∧
    PyError.attributeError "Z" ≠
      PyError.valueError "Run `.compute_transitions` first." := by
  exact ⟨rfl, by decide⟩

/-- C7 amended: before `compute_transitions` has run, `compute_eigen` fails
with the "run `.compute_transitions` first" state error, while reading the
`transitions` property fails with an `AttributeError` for the missing `Z`
attribute rather than a run-first condition. -/
theorem state_order_errors_before_compute_transitions :
    NeighborsTransState.compute_eigen (freshNeighborsTransState Unit) =
      .error (.valueError "Run `.compute_transitions` first.") ∧
    NeighborsTransState.transitions (M := Unit) id (fun _ _ => ())
      (freshNeighborsTransState Unit) = .error (.attributeError "Z") :=
  ⟨rfl, rfl⟩

/-- C8: reconstructing a flattened forest does not round-trip; the
reconstruction iterates the characters of the string `"hyperplanes"` as
dictionary keys and fails with `KeyError` on the first character, for the
concrete two-tree sample forest. -/
theorem rp_forest_roundtrip_key_error :
    rpForestGenerate (makeForestDict sampleForest) = Except.error "h" := by
  rfl

/-- Characterization of the `_set_iroot_via_xroot` scan loop on a strictly
increasing index list, assuming no squared distance is below the break
threshold `1e-20`: if nothing improves on the incoming best, the incoming
index is returned; otherwise the result is the first index of the list
attaining the minimum. -/
theorem irootGo_spec {n : ℕ} (dsq : Fin n → ℚ) (h1 : ∀ i, (1e-20 : ℚ) ≤ dsq i) :
    ∀ (L : List (Fin n)) (dbest : ℚ) (ibest : Fin n), L.Pairwise (· < ·) →
      ((∀ i ∈ L, dbest ≤ dsq i) → irootGo dsq L dbest ibest = ibest) ∧
      (∀ i0 ∈ L, dsq i0 < dbest →
        irootGo dsq L dbest ibest ∈ L ∧
        dsq (irootGo dsq L dbest ibest) < dbest ∧
        (∀ i ∈ L, dsq (irootGo dsq L dbest ibest) ≤ dsq i) ∧
        (∀ i ∈ L, i < irootGo dsq L dbest ibest →
          dsq (irootGo dsq L dbest ibest) < dsq i)) := by
  intro L
  induction L with
  | nil => exact fun dbest ibest _ => ⟨fun _ => rfl, fun i0 hi0 => absurd hi0 (by simp)⟩
  | cons i rest ih =>
    intro dbest ibest hpw
    rw [List.pairwise_cons] at hpw
    by_cases h : dsq i < dbest
    · have hbreak : ¬ dsq i < 1e-20 := not_lt.mpr (h1 i)
      have hrec : irootGo dsq (i :: rest) dbest ibest = irootGo dsq rest (dsq i) i := by
        simp [irootGo, h, hbreak]
      constructor
      · intro hall
        exact absurd (hall i (List.mem_cons_self i rest)) (not_le.mpr h)
      · intro i0 _ _
        rw [hrec]
        by_cases hall : ∀ t ∈ rest, dsq i ≤ dsq t
        · have hres : irootGo dsq rest (dsq i) i = i := (ih (dsq i) i hpw.2).1 hall
          rw [hres]
          refine ⟨List.mem_cons_self i rest, h, ?_, ?_⟩
          · intro t ht
            rcases List.mem_cons.mp ht with rfl | ht'
            · exact le_refl _
            · exact hall t ht'
          · intro t ht hti
            rcases List.mem_cons.mp ht with rfl | ht'
            · exact absurd hti (lt_irrefl t)
            · exact absurd hti (not_lt.mpr (le_of_lt (hpw.1 t ht')))
        · push_neg at hall
          obtain ⟨t0, ht0, ht0lt⟩ := hall
          obtain ⟨hmem, hlt, hle, hfirst⟩ := (ih (dsq i) i hpw.2).2 t0 ht0 ht0lt
          refine ⟨List.mem_cons_of_mem i hmem, lt_trans hlt h, ?_, ?_⟩
          · intro t ht
            rcases List.mem_cons.mp ht with rfl | ht'
            · exact le_of_lt hlt
            · exact hle t ht'
          · intro t ht hti
            rcases List.mem_cons.mp ht with rfl | ht'
            · exact hlt
            · exact hfirst t ht' hti
    · have hrec : irootGo dsq (i :: rest) dbest ibest = irootGo dsq rest dbest ibest := by
        simp [irootGo, h]
      rw [hrec]
      have hge : dbest ≤ dsq i := not_lt.mp h
      constructor
      · intro hall
        exact (ih dbest ibest hpw.2).1 fun t ht => hall t (List.mem_cons_of_mem i ht)
      · intro i0 hi0 hi0lt
        have hi0' : i0 ∈ rest := by
          rcases List.mem_cons.mp hi0 with rfl | ht'
          · exact absurd hi0lt (not_lt.mpr hge)
          · exact ht'
        obtain ⟨hmem, hlt, hle, hfirst⟩ := (ih dbest ibest hpw.2).2 i0 hi0' hi0lt
        refine ⟨List.mem_cons_of_mem i hmem, hlt, ?_, ?_⟩
        · intro t ht
          rcases List.mem_cons.mp ht with rfl | ht'
          · exact le_trans (le_of_lt hlt) hge
          · exact hle t ht'
        · intro t ht hti
          rcases List.mem_cons.mp ht with rfl | ht'
          · exact lt_of_lt_of_le hlt hge
          · exact hfirst t ht' hti

/-- C9 counterexample: with both observations at squared distance at least
`1e10` from the reference vector, the scan returns index 0 even though index 1
is strictly closer — the returned index does not minimize the squared
distance over all observations. -/
theorem set_iroot_via_xroot_not_argmin :
    setIrootViaXroot c9X c9xroot = 0 ∧
    xrootDsq c9X c9xroot 1 < xrootDsq c9X c9xroot 0 := by
  have h0 : xrootDsq c9X c9xroot 0 = 40000000000 := by
    norm_num [xrootDsq, c9X, c9xroot, Fin.sum_univ_one]
  have h1 : xrootDsq c9X c9xroot 1 = 10000000000 := by
    norm_num [xrootDsq, c9X, c9xroot, Fin.sum_univ_one]
  have hfr : List.finRange 2 = [0, 1] := by decide
  constructor
  · unfold setIrootViaXroot
    rw [show List.finRange (1 + 1) = [0, 1] from hfr]
    simp only [irootGo, h0, h1]
    norm_num
  · rw [h0, h1]
    norm_num

/-- C9 amended: provided some observation has squared distance below the
`1e10` initialization of `dsqroot` (otherwise index 0 is returned regardless)
and no observation has distance below the `1e-10` early-exit threshold (i.e.
squared distance below `1e-20`; otherwise the scan stops at the first such
index even if a later one is closer), `_set_iroot_via_xroot` returns the
first observation index minimizing the squared Euclidean distance to the
reference vector. -/
theorem set_iroot_via_xroot_first_argmin {n d : ℕ}
    (X : Fin (n + 1) → Fin d → ℚ) (xroot : Fin d → ℚ)
    (h1 : ∀ i, (1e-20 : ℚ) ≤ xrootDsq X xroot i)
    (h2 : ∃ i, xrootDsq X xroot i < 1e10) :
    (∀ i, xrootDsq X xroot (setIrootViaXroot X xroot) ≤ xrootDsq X xroot i) ∧
    (∀ i, i < setIrootViaXroot X xroot →
      xrootDsq X xroot (setIrootViaXroot X xroot) < xrootDsq X xroot i) := by
  obtain ⟨i0, hi0⟩ := h2
  obtain ⟨_, _, hle, hfirst⟩ :=
    (irootGo_spec (xrootDsq X xroot) h1 (List.finRange (n + 1)) 1e10 0
      (List.pairwise_lt_finRange (n + 1))).2 i0 (List.mem_finRange i0) hi0
  exact ⟨fun i => hle i (List.mem_finRange i), fun i => hfirst i (List.mem_finRange i)⟩

/-- C9 amended witness: on three one-dimensional observations at 3, 1, 2 with
reference 0, the scan result is at least as close to the reference as
observation 0. -/
theorem set_iroot_via_xroot_first_argmin_witness :
    (∀ i, (1e-20 : ℚ) ≤ xrootDsq c9wX c9wroot i) ∧
    (∃ i, xrootDsq c9wX c9wroot i < 1e10) ∧
    xrootDsq c9wX c9wroot (setIrootViaXroot c9wX c9wroot) ≤ xrootDsq c9wX c9wroot 0 := by
  have hA : ∀ i, (1e-20 : ℚ) ≤ xrootDsq c9wX c9wroot i := by
    intro i
    fin_cases i <;> norm_num [xrootDsq, c9wX, c9wroot, Fin.sum_univ_one]
  have hB : ∃ i, xrootDsq c9wX c9wroot i < 1e10 :=
    ⟨1, by norm_num [xrootDsq, c9wX, c9wroot, Fin.sum_univ_one]⟩
  exact ⟨hA, hB, (set_iroot_via_xroot_first_argmin c9wX c9wroot hA hB).1 0⟩

/-- C6 counterexample: for concrete knn results whose self column carries the
true self-distance 0, neither sparse builder stores an entry at `(0, 0)` —
`eliminate_zeros` has removed the explicit self-distance zero, contradicting
the claim that it is stored for every row. -/
theorem sparse_self_zero_not_stored :
    ¬ umapSparseStored c6ki c6kd 0 0 ∧ ¬ numpySparseStored c6ki' c6kd 0 0 := by
  unfold umapSparseStored numpySparseStored
  decide

/-- C6 amended: the sparse builders drop every zero-valued slot, including the
true self-distance: the umap-style builder never stores a `(i, i)` entry (the
self column is forced to value `0.0` and then eliminated), and the numpy-style
builder stores no `(i, i)` entry whenever the distances at self columns are 0;
`-1`-indexed slots are skipped outright. -/
theorem sparse_builders_drop_self_zeros {n k : ℕ}
    (ki : Fin n → Fin k → ℤ) (kd : Fin n → Fin k → ℚ)
    (indices : Fin n → Fin k → Fin n) (dists : Fin n → Fin k → ℚ) :
    (∀ i, ¬ umapSparseStored ki kd i i) ∧
    (∀ i, (∀ j, indices i j = i → dists i j = 0) →
      ¬ numpySparseStored indices dists i i) := by
  constructor
  · rintro i ⟨j, hj, hne⟩
    rw [if_pos hj] at hne
    exact hne rfl
  · rintro i hz ⟨j, hj, hne⟩
    exact hne (hz j hj)

/-- C6 amended witness: the numpy-variant hypothesis holds for the concrete
knn data (self distances are 0), hence no `(0, 0)` entry is stored. -/
theorem sparse_builders_drop_self_zeros_witness :
    (∀ j, c6ki' 0 j = 0 → c6kd 0 j = 0) ∧ ¬ numpySparseStored c6ki' c6kd 0 0 :=
  ⟨by decide, (sparse_builders_drop_self_zeros c6ki c6kd c6ki' c6kd).2 0 (by decide)⟩

/-- Concrete evaluation of the sparse extraction on the `c5` inputs with
`k = 3`: both rows broadcast their single nonzero entry. -/
lemma c5_extraction_eval :
    get_indices_distances_from_sparse_matrix c5pat c5D 3 = some c5e := by
  have h0 : get_indices_row c5pat c5D 3 0 =
      some (([0, 1, 1] : List ℤ), ([0, 5, 5] : List ℚ)) := rfl
  have h1 : get_indices_row c5pat c5D 3 1 =
      some (([1, 0, 0] : List ℤ), ([0, 5, 5] : List ℚ)) := rfl
  have hs : ∀ i, (get_indices_row c5pat c5D 3 i).isSome := by
    intro i
    fin_cases i <;> rfl
  rw [get_indices_distances_from_sparse_matrix, dif_pos hs]
  congr 1
  funext i
  fin_cases i
  · simp only [h0, Option.get_some, c5e]
    rfl
  · simp only [h1, Option.get_some, c5e]
    rfl

/-- C5 counterexample: with `k = 3`, row 0 of the concrete sparse matrix has
only one nonzero entry (fewer than `k - 1 = 2`), yet the extracted index row
is `[0, 1, 1]` — numpy broadcasting replicated the single entry and no `-1`
padding was left, contradicting the claim that under-complete rows keep `-1`
padding. -/
theorem sparse_extraction_no_minus_one_padding :
    get_indices_distances_from_sparse_matrix c5pat c5D 3 = some c5e ∧
    (sparseRowNbrs c5pat c5D 0).length < 3 - 1 ∧
    (c5e 0).1 = [0, 1, 1] ∧
    (-1 : ℤ) ∉ (c5e 0).1 :=
  ⟨c5_extraction_eval, by decide, by decide, by decide⟩

/-- C5 amended: when extraction succeeds, every row places the self index at
column 0 with distance 0 and has exactly `k` entries; all emitted indices are
nonnegative (never `-1`); if a row has at least `k - 1` nonzero entries, the
`k - 1` selected distances are smallest among the row's nonzero values
(truncating over-complete rows); and no successfully extracted row has fewer
than `k - 1` nonzero entries except the single-entry rows that numpy
broadcasting replicates — other under-complete rows make the whole extraction
fail. -/
theorem get_indices_distances_sparse_spec {n : ℕ} (pattern : Fin n → List (Fin n))
    (D : Fin n → Fin n → ℚ) (k : ℕ) (e : Fin n → List ℤ × List ℚ)
    (hk : 1 ≤ k)
    (he : get_indices_distances_from_sparse_matrix pattern D k = some e) (i : Fin n) :
    (e i).1.head? = some (i.val : ℤ) ∧
    (e i).2.head? = some 0 ∧
    (e i).1.length = k ∧
    (e i).2.length = k ∧
    (∀ z ∈ (e i).1, 0 ≤ z) ∧
    (k - 1 ≤ (sparseRowNbrs pattern D i).length →
      ∃ rest : List ℚ,
        ((e i).2.tail ++ rest).Perm ((sparseRowNbrs pattern D i).map (fun j => D i j)) ∧
        (∀ x ∈ (e i).2.tail, ∀ y ∈ rest, x ≤ y) ∧
        (e i).2.tail.length = k - 1) ∧
    ¬((sparseRowNbrs pattern D i).length < k - 1 ∧
      (sparseRowNbrs pattern D i).length ≠ 1) := by
  have hei : get_indices_row pattern D k i = some (e i) := by
    by_cases h : ∀ i, (get_indices_row pattern D k i).isSome
    · rw [get_indices_distances_from_sparse_matrix, dif_pos h] at he
      have hfun := Option.some.inj he
      have hi : e i = (get_indices_row pattern D k i).get (h i) := by rw [← hfun]
      rw [hi]
      exact (Option.some_get (h i)).symm
    · rw [get_indices_distances_from_sparse_matrix, dif_neg h] at he
      exact absurd he (by simp)
  have hr : IsTrans (Fin n) (fun a b => D i a ≤ D i b) :=
    ⟨fun _ _ _ hab hbc => le_trans hab hbc⟩
  have hr' : IsTotal (Fin n) (fun a b => D i a ≤ D i b) :=
    ⟨fun a b => le_total _ _⟩
  simp only [get_indices_row] at hei
  split_ifs at hei with hover hexact
  · -- over-complete: the k-1 smallest among the sorted nonzero entries
    have hpair := (Option.some.inj hei).symm
    have hslen : (List.insertionSort (fun a b => D i a ≤ D i b)
        (sparseRowNbrs pattern D i)).length = (sparseRowNbrs pattern D i).length :=
      List.length_insertionSort _ _
    rw [hpair]
    refine ⟨rfl, rfl, ?_, ?_, ?_, ?_, ?_⟩
    · simp only [List.length_cons, List.length_map, List.length_take]
      omega
    · simp only [List.length_cons, List.length_map, List.length_take]
      omega
    · intro z hz
      rcases List.mem_cons.mp hz with rfl | hz'
      · exact Int.natCast_nonneg _
      · obtain ⟨j, _, rfl⟩ := List.mem_map.mp hz'
        exact Int.natCast_nonneg _
    · intro _
      refine ⟨((List.insertionSort (fun a b => D i a ≤ D i b)
          (sparseRowNbrs pattern D i)).drop (k - 1)).map (fun j => D i j), ?_, ?_, ?_⟩
      · have htd : (((List.insertionSort (fun a b => D i a ≤ D i b)
              (sparseRowNbrs pattern D i)).take (k - 1)).map (fun j => D i j)) ++
            (((List.insertionSort (fun a b => D i a ≤ D i b)
              (sparseRowNbrs pattern D i)).drop (k - 1)).map (fun j => D i j)) =
            (List.insertionSort (fun a b => D i a ≤ D i b)
              (sparseRowNbrs pattern D i)).map (fun j => D i j) := by
          rw [← List.map_append, List.take_append_drop]
        simp only [List.tail_cons]
        rw [htd]
        exact (List.perm_insertionSort _ (sparseRowNbrs pattern D i)).map _
      · simp only [List.tail_cons]
        intro x hx y hy
        obtain ⟨a, ha, rfl⟩ := List.mem_map.mp hx
        obtain ⟨b, hb, rfl⟩ := List.mem_map.mp hy
        exact List.Sorted.rel_of_mem_take_of_mem_drop
          (List.sorted_insertionSort _ (sparseRowNbrs pattern D i)) ha hb
      · simp only [List.tail_cons, List.length_map, List.length_take]
        omega
    · omega
  · -- exactly k-1 nonzero entries: all of them are kept in order
    have hpair := (Option.some.inj hei).symm
    rw [hpair]
    refine ⟨rfl, rfl, ?_, ?_, ?_, ?_, ?_⟩
    · simp only [List.length_cons, List.length_map]
      omega
    · simp only [List.length_cons, List.length_map]
      omega
    · intro z hz
      rcases List.mem_cons.mp hz with rfl | hz'
      · exact Int.natCast_nonneg _
      · obtain ⟨j, _, rfl⟩ := List.mem_map.mp hz'
        exact Int.natCast_nonneg _
    · intro _
      refine ⟨[], ?_, ?_, ?_⟩
      · simp
      · simp
      · simp only [List.tail_cons, List.length_map]
        omega
    · omega
  · -- under-complete: only a single-entry row survives, by broadcasting
    rcases hnb : sparseRowNbrs pattern D i with _ | ⟨j, _ | ⟨j2, tl⟩⟩
    · rw [hnb] at hei
      exact Option.noConfusion hei
    · rw [hnb] at hei hover hexact
      have hpair : e i = ((i.val : ℤ) :: List.replicate (k - 1) (j.val : ℤ),
          0 :: List.replicate (k - 1) (D i j)) := (Option.some.inj hei).symm
      have hn1 : ¬ (k - 1 < 1) := by simpa using hover
      have hne1 : ¬ ((1 : ℕ) = k - 1) := by simpa using hexact
      rw [hpair]
      refine ⟨rfl, rfl, ?_, ?_, ?_, ?_, ?_⟩
      · simp only [List.length_cons, List.length_replicate]
        omega
      · simp only [List.length_cons, List.length_replicate]
        omega
      · intro z hz
        rcases List.mem_cons.mp hz with rfl | hz'
        · exact Int.natCast_nonneg _
        · rw [List.eq_of_mem_replicate hz']
          exact Int.natCast_nonneg _
      · intro hge
        simp only [List.length_cons, List.length_nil] at hge
        exfalso
        omega
      · simp
    · rw [hnb] at hei
      exact Option.noConfusion hei
/-- C5 amended witness: the amended extraction specification, instantiated on
the concrete `c5` inputs at row 0. -/
theorem get_indices_distances_sparse_spec_witness :
    (1 ≤ 3) ∧
    get_indices_distances_from_sparse_matrix c5pat c5D 3 = some c5e ∧
    (c5e 0).1.head? = some ((0 : Fin 2).val : ℤ) :=
  ⟨by norm_num, c5_extraction_eval,
    (get_indices_distances_sparse_spec c5pat c5D 3 c5e (by norm_num)
      c5_extraction_eval 0).1⟩

/-- A nonnegative vector with positive sum has a positive entry. -/
lemma exists_pos_entry {n : ℕ} (f : Fin n → ℝ) (_hnn : ∀ i, 0 ≤ f i)
    (h : 0 < ∑ i, f i) : ∃ i, 0 < f i := by
  by_contra hc
  push_neg at hc
  have hle : ∑ i, f i ≤ 0 := Finset.sum_nonpos fun i _ => hc i
  linarith

/-- For a symmetric kernel with positive column sums, the conjugated operator
`Z K Z` re-scaled by `Z …  Zinv` has unit row sums. -/
lemma conj_row_sums_one {n : ℕ} (K : Matrix (Fin n) (Fin n) ℝ)
    (hKsym : ∀ i j, K i j = K j i) (hKcol : ∀ j, 0 < ∑ i, K i j) :
    ∀ i, ∑ j,
      (Matrix.diagonal (fun a => 1 / colSqrt K a) *
        (Matrix.diagonal (fun a => 1 / colSqrt K a) * K *
          Matrix.diagonal (fun a => 1 / colSqrt K a)) *
        Matrix.diagonal (fun a => 1 / (1 / colSqrt K a))) i j = 1 := by
  have hzpos : ∀ a, 0 < colSqrt K a := by
    intro a
    unfold colSqrt
    exact Real.sqrt_pos.mpr (hKcol a)
  intro i
  have hEntry : ∀ j,
      (Matrix.diagonal (fun a => 1 / colSqrt K a) *
        (Matrix.diagonal (fun a => 1 / colSqrt K a) * K *
          Matrix.diagonal (fun a => 1 / colSqrt K a)) *
        Matrix.diagonal (fun a => 1 / (1 / colSqrt K a))) i j =
      1 / (colSqrt K i * colSqrt K i) * K i j := by
    intro j
    simp only [Matrix.mul_diagonal, Matrix.diagonal_mul]
    have hi := (hzpos i).ne'
    have hj := (hzpos j).ne'
    field_simp
    ring
  rw [Finset.sum_congr rfl fun j _ => hEntry j, ← Finset.mul_sum]
  have hcolrow : ∑ j, K i j = ∑ j, K j i :=
    Finset.sum_congr rfl fun j _ => hKsym i j
  have hzz : colSqrt K i * colSqrt K i = ∑ j, K j i := by
    unfold colSqrt
    exact Real.mul_self_sqrt (le_of_lt (hKcol i))
  rw [hcolrow, ← hzz]
  exact one_div_mul_cancel (mul_pos (hzpos i) (hzpos i)).ne'

/-- Entrywise formula of the density-normalized kernel. -/
lemma transitionsKmat_apply {n : ℕ} (W : Matrix (Fin n) (Fin n) ℝ) (i j : Fin n) :
    transitionsKmat true W i j =
      1 / transitionsQvec W i * W i j * (1 / transitionsQvec W j) := by
  simp [transitionsKmat, Matrix.mul_diagonal, Matrix.diagonal_mul]

/-- C2: for a valid (symmetric, nonnegative) connectivity matrix with strictly
positive row/column sums, every row of the derived asymmetric operator
`transitions = Z @ transitions_sym @ Zinv` sums to exactly 1, with or without
density normalization. -/
theorem transitions_row_stochastic {n : ℕ} (dn : Bool) (W : Matrix (Fin n) (Fin n) ℝ)
    (hsym : ∀ i j, W i j = W j i) (hnn : ∀ i j, 0 ≤ W i j)
    (hpos : ∀ j, 0 < ∑ i, W i j) :
    ∀ i, ∑ j, transitionsMat dn W i j = 1 := by
  have hq : ∀ j, 0 < transitionsQvec W j := fun j => hpos j
  have hKsym : ∀ i j, transitionsKmat dn W i j = transitionsKmat dn W j i := by
    intro i j
    cases dn with
    | false => simpa [transitionsKmat] using hsym i j
    | true =>
      rw [transitionsKmat_apply, transitionsKmat_apply, hsym i j]
      ring
  have hKcol : ∀ j, 0 < ∑ i, transitionsKmat dn W i j := by
    intro j
    cases dn with
    | false => simpa [transitionsKmat] using hpos j
    | true =>
      obtain ⟨i0, hi0⟩ := exists_pos_entry (fun i => W i j) (fun i => hnn i j) (hpos j)
      refine Finset.sum_pos' (fun i _ => ?_) ⟨i0, Finset.mem_univ i0, ?_⟩
      · rw [transitionsKmat_apply]
        exact mul_nonneg (mul_nonneg (one_div_nonneg.mpr (hq i).le) (hnn i j))
          (one_div_nonneg.mpr (hq j).le)
      · rw [transitionsKmat_apply]
        exact mul_pos (mul_pos (one_div_pos.mpr (hq i0)) hi0) (one_div_pos.mpr (hq j))
  intro i
  exact conj_row_sums_one (transitionsKmat dn W) hKsym hKcol i

/-- C2 witness: the concrete symmetric matrix `c2W` satisfies the hypotheses
and row 0 of its derived transition matrix sums to 1. -/
theorem transitions_row_stochastic_witness :
    (∀ i j, c2W i j = c2W j i) ∧ (∀ i j, 0 ≤ c2W i j) ∧
    (∀ j, 0 < ∑ i, c2W i j) ∧ (∑ j, transitionsMat true c2W 0 j = 1) := by
  have h1 : ∀ i j, c2W i j = c2W j i := by
    intro i j
    fin_cases i <;> fin_cases j <;> rfl
  have h2 : ∀ i j, (0 : ℝ) ≤ c2W i j := by
    intro i j
    fin_cases i <;> fin_cases j <;> norm_num [c2W]
  have h3 : ∀ j, (0 : ℝ) < ∑ i, c2W i j := by
    intro j
    fin_cases j <;> norm_num [c2W, Fin.sum_univ_two]
  exact ⟨h1, h2, h3, transitions_row_stochastic true c2W h1 h2 h3 0⟩

/-- The accumulated squared diffusion distance vanishes on the diagonal. -/
lemma dptRowVal_self {n m : ℕ} (ev : Fin m → ℚ) (psi : Fin n → Fin m → ℚ) (i : Fin n) :
    dptRowVal ev psi i i = 0 := by
  simp [dptRowVal]

/-- The accumulated squared diffusion distance is symmetric. -/
lemma dptRowVal_symm {n m : ℕ} (ev : Fin m → ℚ) (psi : Fin n → Fin m → ℚ) (i j : Fin n) :
    dptRowVal ev psi i j = dptRowVal ev psi j i := by
  unfold dptRowVal
  congr 1 <;> exact Finset.sum_congr rfl fun l _ => by ring

/-- A diffusion-distance row entry vanishes on the diagonal. -/
lemma dptEntry_self {n m : ℕ} (nComp : ℕ) (labels : Fin n → ℕ) (ev : Fin m → ℚ)
    (psi : Fin n → Fin m → ℚ) (i : Fin n) :
    dptEntry nComp labels ev psi i i = 0 := by
  unfold dptEntry
  rw [if_neg (by simp)]
  simp [dptRowVal_self]

/-- Diffusion-distance row entries are symmetric. -/
lemma dptEntry_symm {n m : ℕ} (nComp : ℕ) (labels : Fin n → ℕ) (ev : Fin m → ℚ)
    (psi : Fin n → Fin m → ℚ) (i j : Fin n) :
    dptEntry nComp labels ev psi i j = dptEntry nComp labels ev psi j i := by
  unfold dptEntry
  by_cases hcond : 1 < nComp ∧ labels j ≠ labels i
  · rw [if_pos hcond, if_pos ⟨hcond.1, Ne.symm hcond.2⟩]
  · rw [if_neg hcond, if_neg (fun hc => hcond ⟨hc.1, Ne.symm hc.2⟩), dptRowVal_symm]

/-- Entries across genuinely distinct connected components are infinite. -/
lemma dptEntry_cross {n m : ℕ} (nComp : ℕ) (labels : Fin n → ℕ) (ev : Fin m → ℚ)
    (psi : Fin n → Fin m → ℚ) (i j : Fin n)
    (hcount : nComp = (Finset.image labels Finset.univ).card)
    (hij : labels i ≠ labels j) :
    dptEntry nComp labels ev psi i j = ⊤ := by
  have h2 : 1 < nComp := by
    rw [hcount]
    exact Finset.one_lt_card.mpr
      ⟨labels i, Finset.mem_image_of_mem _ (Finset.mem_univ i),
       labels j, Finset.mem_image_of_mem _ (Finset.mem_univ j), hij⟩
  unfold dptEntry
  rw [if_pos ⟨h2, Ne.symm hij⟩]

/-- C3: the diffusion-distance row function is a pseudometric restricted to
each connected component — on-diagonal entries are 0, entries are symmetric,
and entries between observations with distinct component labels are exactly
infinite (given that the stored component count is the number of distinct
labels, as produced by `connected_components`). -/
theorem dpt_row_pseudometric {n m : ℕ} (nComp : ℕ) (labels : Fin n → ℕ)
    (ev : Fin m → ℚ) (psi : Fin n → Fin m → ℚ)
    (hcount : nComp = (Finset.image labels Finset.univ).card) :
    (∀ i, dptEntry nComp labels ev psi i i = 0) ∧
    (∀ i j, dptEntry nComp labels ev psi i j = dptEntry nComp labels ev psi j i) ∧
    (∀ i j, labels i ≠ labels j → dptEntry nComp labels ev psi i j = ⊤) :=
  ⟨fun i => dptEntry_self nComp labels ev psi i,
   fun i j => dptEntry_symm nComp labels ev psi i j,
   fun i j hij => dptEntry_cross nComp labels ev psi i j hcount hij⟩

/-- C3 witness: two observations with distinct component labels, instantiating
the pseudometric properties. -/
theorem dpt_row_pseudometric_witness :
    (2 = (Finset.image c3lab Finset.univ).card) ∧
    dptEntry 2 c3lab dptWev dptWpsi 0 0 = 0 ∧
    dptEntry 2 c3lab dptWev dptWpsi 0 1 = dptEntry 2 c3lab dptWev dptWpsi 1 0 ∧
    (c3lab 0 ≠ c3lab 1 → dptEntry 2 c3lab dptWev dptWpsi 0 1 = ⊤) := by
  have hcount : 2 = (Finset.image c3lab Finset.univ).card := by decide
  obtain ⟨h1, h2, h3⟩ := dpt_row_pseudometric 2 c3lab dptWev dptWpsi hcount
  exact ⟨hcount, h1 0, h2 0 1, h3 0 1⟩

/-- C4: the pseudotime vector is the root diffusion-distance row divided by
the maximum over its finite entries.  Provided that maximum is positive (the
nondegenerate case; a zero maximum makes the numpy division produce `nan`),
the value at the root is 0, every finite entry is at most 1, and infinite
entries stay infinite (they are excluded from the maximum and unchanged by
the division). -/
theorem pseudotime_unit_interval {n m : ℕ} (nComp : ℕ) (labels : Fin n → ℕ)
    (ev : Fin m → ℚ) (psi : Fin n → Fin m → ℚ) (iroot : Fin n)
    (hM : 0 < dptMaxFin nComp labels ev psi iroot) :
    pseudotime nComp labels ev psi iroot iroot = 0 ∧
    (∀ j, dptEntry nComp labels ev psi iroot j ≠ ⊤ →
      pseudotime nComp labels ev psi iroot j ≤ 1) ∧
    (∀ j, dptEntry nComp labels ev psi iroot j = ⊤ →
      pseudotime nComp labels ev psi iroot j = ⊤) := by
  classical
  have hMtop : dptMaxFin nComp labels ev psi iroot ≠ ⊤ := by
    rw [← lt_top_iff_ne_top]
    unfold dptMaxFin
    refine (Finset.sup_lt_iff bot_lt_top).mpr ?_
    intro b hb
    exact (Finset.mem_filter.mp hb).2
  refine ⟨?_, ?_, ?_⟩
  · unfold pseudotime
    rw [dptEntry_self]
    exact ENNReal.zero_div
  · intro j hj
    unfold pseudotime
    have hle : dptEntry nComp labels ev psi iroot j ≤ dptMaxFin nComp labels ev psi iroot := by
      unfold dptMaxFin
      exact Finset.le_sup
        (Finset.mem_filter.mpr ⟨Finset.mem_univ j, lt_top_iff_ne_top.mpr hj⟩)
    rw [ENNReal.div_le_iff hM.ne' hMtop, one_mul]
    exact hle
  · intro j hj
    unfold pseudotime
    rw [hj]
    exact ENNReal.top_div_of_ne_top hMtop

/-- Concrete evaluation of the nontrivial diffusion-distance entry used by the
C4 witness. -/
lemma dptEntry_c4_eval : dptEntry 1 c4lab dptWev dptWpsi 0 1 = 1 := by
  have hrv : dptRowVal dptWev dptWpsi 0 1 = 1 := by
    simp only [dptRowVal, dptWev, dptWpsi, Finset.sum_filter, Fin.sum_univ_one]
    norm_num
  unfold dptEntry
  rw [if_neg (by norm_num)]
  rw [hrv]
  norm_num

/-- C4 witness: for the one-component witness data, the maximum finite entry
of the root row is positive and the pseudotime at the root is 0. -/
theorem pseudotime_unit_interval_witness :
    0 < dptMaxFin 1 c4lab dptWev dptWpsi 0 ∧
    pseudotime 1 c4lab dptWev dptWpsi 0 0 = 0 := by
  classical
  have hmem : (1 : Fin 2) ∈ Finset.univ.filter
      (fun j => dptEntry 1 c4lab dptWev dptWpsi 0 j < ⊤) := by
    refine Finset.mem_filter.mpr ⟨Finset.mem_univ _, ?_⟩
    rw [dptEntry_c4_eval]
    exact ENNReal.one_lt_top
  have h1le : (1 : ℝ≥0∞) ≤ dptMaxFin 1 c4lab dptWev dptWpsi 0 := by
    have := Finset.le_sup (f := dptEntry 1 c4lab dptWev dptWpsi 0) hmem
    rwa [dptEntry_c4_eval] at this
  have hM : 0 < dptMaxFin 1 c4lab dptWev dptWpsi 0 :=
    lt_of_lt_of_le zero_lt_one h1le
  exact ⟨hM, (pseudotime_unit_interval 1 c4lab dptWev dptWpsi 0 hM).1⟩

/-- The Gaussian edge weight is symmetric in the two bandwidths. -/
lemma gaussWeight_comm (ssqi ssqj dsq : ℚ) :
    gaussWeight ssqi ssqj dsq = gaussWeight ssqj ssqi dsq := by
  unfold gaussWeight
  rw [mul_right_comm (2 : ℝ) (Real.sqrt ssqi) (Real.sqrt ssqj),
    add_comm ((ssqi : ℚ) : ℝ) ((ssqj : ℚ) : ℝ)]

/-- The inner sparse borrow loop keeps the matrix pointwise equal to a
symmetric initial matrix: every write copies `W[i,j] = W0[i,j] = W0[j,i]` into
position `(j,i)`. -/
lemma borrowFold_inner_eq {n : ℕ} (ind : Fin n → List (Fin n)) (i : Fin n)
    (W0 : Fin n → Fin n → ℝ) (hsym : ∀ a b, W0 a b = W0 b a) :
    ∀ (L : List (Fin n)) (W : Fin n → Fin n → ℝ), (∀ a b, W a b = W0 a b) →
      ∀ a b, (L.foldl (borrowStepInner ind i) W) a b = W0 a b := by
  intro L
  induction L with
  | nil => exact fun W hW a b => hW a b
  | cons j rest ih =>
    intro W hW a b
    simp only [List.foldl_cons]
    apply ih
    intro x y
    unfold borrowStepInner
    by_cases hmem : i ∈ ind j
    · rw [if_pos hmem]
      exact hW x y
    · rw [if_neg hmem]
      unfold updFn
      split_ifs with hxy
      · obtain ⟨hx, hy⟩ := hxy
        rw [hx, hy, hW i j]
        exact hsym i j
      · exact hW x y

/-- The sparse borrow loop is the identity on a symmetric weight matrix. -/
lemma borrowFold_eq {n : ℕ} (ind : Fin n → List (Fin n)) (W0 : Fin n → Fin n → ℝ)
    (hsym : ∀ a b, W0 a b = W0 b a) :
    ∀ a b, borrowFold ind W0 a b = W0 a b := by
  unfold borrowFold
  suffices h : ∀ (P : List (Fin n)) (W : Fin n → Fin n → ℝ), (∀ a b, W a b = W0 a b) →
      ∀ a b, (P.foldl (fun W i => (ind i).foldl (borrowStepInner ind i) W) W) a b = W0 a b by
    exact h (List.finRange n) W0 fun _ _ => rfl
  intro P
  induction P with
  | nil => exact fun W hW a b => hW a b
  | cons i rest ih =>
    intro W hW a b
    simp only [List.foldl_cons]
    exact ih _ (borrowFold_inner_eq ind i W0 hsym (ind i) W hW) a b

/-- The initial sparse weight matrix is symmetric when the stored pattern and
the distance values are. -/
lemma sparseW0_symm {n : ℕ} (pattern : Fin n → List (Fin n)) (D : Fin n → Fin n → ℚ)
    (e : Fin n → List ℤ × List ℚ)
    (hD : ∀ i j, D i j = D j i)
    (hpat : ∀ i j, j ∈ pattern i ↔ i ∈ pattern j) :
    ∀ a b, sparseW0 pattern D e a b = sparseW0 pattern D e b a := by
  intro a b
  unfold sparseW0
  by_cases hmem : b ∈ pattern a
  · rw [if_pos hmem, if_pos ((hpat a b).mp hmem), hD a b, gaussWeight_comm]
  · rw [if_neg hmem, if_neg (fun hc => hmem ((hpat b a).mp hc))]

/-- The inner dense mask-and-borrow loop at row `i`: the weight component
stays pointwise equal to the symmetric initial matrix and the mask gains
exactly the borrow targets `(a, i)` for processed neighbors `a` with
`i ∉ indices[a]`. -/
lemma maskBorrowFold_inner {n : ℕ} (ind : Fin n → List (Fin n)) (i : Fin n)
    (W0 : Fin n → Fin n → ℝ) (hsym : ∀ a b, W0 a b = W0 b a) :
    ∀ (L : List (Fin n)) (st : (Fin n → Fin n → ℝ) × (Fin n → Fin n → Prop)),
      (∀ a b, st.1 a b = W0 a b) →
      (∀ a b, (L.foldl (maskBorrowStepInner ind i) st).1 a b = W0 a b) ∧
      (∀ a b, (L.foldl (maskBorrowStepInner ind i) st).2 a b ↔
        st.2 a b ∨ (a ∈ L ∧ b = i ∧ i ∉ ind a)) := by
  intro L
  induction L with
  | nil =>
    intro st hW
    exact ⟨hW, fun a b => by simp⟩
  | cons j rest ih =>
    intro st hW
    simp only [List.foldl_cons]
    by_cases hmem : i ∈ ind j
    · have hstep : maskBorrowStepInner ind i st j = st := by
        unfold maskBorrowStepInner
        rw [if_pos hmem]
      rw [hstep]
      obtain ⟨h1, h2⟩ := ih st hW
      refine ⟨h1, fun a b => ?_⟩
      rw [h2]
      constructor
      · rintro (hs | ⟨ha, rfl, hni⟩)
        · exact Or.inl hs
        · exact Or.inr ⟨List.mem_cons_of_mem _ ha, rfl, hni⟩
      · rintro (hs | ⟨ha, rfl, hni⟩)
        · exact Or.inl hs
        · rcases List.mem_cons.mp ha with rfl | ha'
          · exact absurd hmem hni
          · exact Or.inr ⟨ha', rfl, hni⟩
    · have hstep : maskBorrowStepInner ind i st j =
          (updFn st.1 j i (st.1 i j), fun a b => (a = j ∧ b = i) ∨ st.2 a b) := by
        unfold maskBorrowStepInner
        rw [if_neg hmem]
      rw [hstep]
      have hW' : ∀ x y, (updFn st.1 j i (st.1 i j)) x y = W0 x y := by
        intro x y
        unfold updFn
        split_ifs with hxy
        · obtain ⟨hx, hy⟩ := hxy
          rw [hx, hy, hW i j]
          exact hsym i j
        · exact hW x y
      obtain ⟨h1, h2⟩ := ih (updFn st.1 j i (st.1 i j),
        fun a b => (a = j ∧ b = i) ∨ st.2 a b) hW'
      refine ⟨h1, fun a b => ?_⟩
      rw [h2]
      dsimp only
      constructor
      · rintro ((⟨rfl, rfl⟩ | hs) | ⟨ha, rfl, hni⟩)
        · exact Or.inr ⟨List.mem_cons_self _ _, rfl, hmem⟩
        · exact Or.inl hs
        · exact Or.inr ⟨List.mem_cons_of_mem _ ha, rfl, hni⟩
      · rintro (hs | ⟨ha, rfl, hni⟩)
        · exact Or.inl (Or.inr hs)
        · rcases List.mem_cons.mp ha with rfl | ha'
          · exact Or.inl (Or.inl ⟨rfl, rfl⟩)
          · exact Or.inr ⟨ha', rfl, hni⟩

/-- The dense mask-and-borrow loop: the weight matrix stays pointwise equal to
the symmetric initial matrix, and the final mask holds at `(a, b)` iff `b` is
a neighbor of `a` or `a` is a neighbor of `b` — a symmetric mask. -/
lemma maskBorrowFold_spec {n : ℕ} (ind : Fin n → List (Fin n))
    (W0 : Fin n → Fin n → ℝ) (hsym : ∀ a b, W0 a b = W0 b a) :
    (∀ a b, (maskBorrowFold ind W0).1 a b = W0 a b) ∧
    (∀ a b, (maskBorrowFold ind W0).2 a b ↔
      b ∈ ind a ∨ (a ∈ ind b ∧ b ∉ ind a)) := by
  unfold maskBorrowFold
  suffices h : ∀ (P : List (Fin n)) (st : (Fin n → Fin n → ℝ) × (Fin n → Fin n → Prop)),
      (∀ a b, st.1 a b = W0 a b) →
      (∀ a b, (P.foldl (fun st i => (ind i).foldl (maskBorrowStepInner ind i)
        (st.1, fun a b => (a = i ∧ b ∈ ind i) ∨ st.2 a b)) st).1 a b = W0 a b) ∧
      (∀ a b, (P.foldl (fun st i => (ind i).foldl (maskBorrowStepInner ind i)
        (st.1, fun a b => (a = i ∧ b ∈ ind i) ∨ st.2 a b)) st).2 a b ↔
        st.2 a b ∨ (a ∈ P ∧ b ∈ ind a) ∨ (b ∈ P ∧ a ∈ ind b ∧ b ∉ ind a)) by
    obtain ⟨h1, h2⟩ := h (List.finRange n) (W0, fun _ _ => False) fun _ _ => rfl
    refine ⟨h1, fun a b => ?_⟩
    rw [h2]
    simp [List.mem_finRange]
  intro P
  induction P with
  | nil =>
    intro st hW
    exact ⟨hW, fun a b => by simp⟩
  | cons i rest ih =>
    intro st hW
    simp only [List.foldl_cons]
    obtain ⟨hi1, hi2⟩ := maskBorrowFold_inner ind i W0 hsym (ind i)
      (st.1, fun a b => (a = i ∧ b ∈ ind i) ∨ st.2 a b) hW
    obtain ⟨h1, h2⟩ := ih _ hi1
    refine ⟨h1, fun a b => ?_⟩
    rw [h2, hi2]
    dsimp only
    constructor
    · rintro (((⟨rfl, hb⟩ | hs) | ⟨ha, rfl, hni⟩) | ⟨ha, hb⟩ | ⟨hb, ha, hni⟩)
      · exact Or.inr (Or.inl ⟨List.mem_cons_self _ _, hb⟩)
      · exact Or.inl hs
      · exact Or.inr (Or.inr ⟨List.mem_cons_self _ _, ha, hni⟩)
      · exact Or.inr (Or.inl ⟨List.mem_cons_of_mem _ ha, hb⟩)
      · exact Or.inr (Or.inr ⟨List.mem_cons_of_mem _ hb, ha, hni⟩)
    · rintro (hs | ⟨ha, hb⟩ | ⟨hb, ha, hni⟩)
      · exact Or.inl (Or.inl (Or.inr hs))
      · rcases List.mem_cons.mp ha with rfl | ha'
        · exact Or.inl (Or.inl (Or.inl ⟨rfl, hb⟩))
        · exact Or.inr (Or.inl ⟨ha', hb⟩)
      · rcases List.mem_cons.mp hb with rfl | hb'
        · exact Or.inl (Or.inr ⟨ha, rfl, hni⟩)
        · exact Or.inr (Or.inr ⟨hb', ha, hni⟩)

/-- The dense weight matrix is symmetric for symmetric distances. -/
lemma denseW_symm {n : ℕ} (D : Fin n → Fin n → ℚ) (k : ℕ) (knn : Bool)
    (hD : ∀ i j, D i j = D j i) :
    ∀ a b, denseW D k knn a b = denseW D k knn b a := by
  intro a b
  unfold denseW
  rw [show denseDsq D a b = denseDsq D b a from by unfold denseDsq; rw [hD a b],
    gaussWeight_comm]

/-- C1: the adaptive-bandwidth Gaussian kernel produces a symmetric
connectivity matrix on both code paths, given identical symmetric input
distances (and, for the sparse path, a symmetric stored pattern): the dense
path is symmetric for both the knn mask-and-borrow branch and the `1e-14`
threshold branch, and the sparse path — whose extraction step succeeded with
result `e` — produces exactly the borrow-symmetrized matrix
`gaussSparseW pattern D e`, which is symmetric.  The symmetrization is the
one-directional borrow `W[j,i] = W[i,j]` for neighbors `j` of `i` with
`i ∉ indices[j]`. -/
theorem gauss_connectivities_symmetric {n : ℕ} (D : Fin n → Fin n → ℚ)
    (pattern : Fin n → List (Fin n)) (k : ℕ) (e : Fin n → List ℤ × List ℚ)
    (hD : ∀ i j, D i j = D j i)
    (hpat : ∀ i j, j ∈ pattern i ↔ i ∈ pattern j)
    (he : get_indices_distances_from_sparse_matrix pattern
      (fun i j => (D i j) ^ 2) k = some e) :
    (∀ (knn : Bool) (i j : Fin n), diffmapDense D k knn i j = diffmapDense D k knn j i) ∧
    diffmapSparse pattern D k = some (gaussSparseW pattern D e) ∧
    (∀ i j, gaussSparseW pattern D e i j = gaussSparseW pattern D e j i) := by
  classical
  refine ⟨?_, ?_, ?_⟩
  · intro knn i j
    have hWs := denseW_symm D k knn hD
    cases knn with
    | false =>
      simp only [diffmapDense, Bool.false_eq_true, if_false]
      rw [hWs i j]
    | true =>
      simp only [diffmapDense, if_true]
      obtain ⟨hF, hM⟩ := maskBorrowFold_spec (denseInd D k) (denseW D k true) hWs
      rw [hF i j, hF j i, hWs i j]
      have hcond : (maskBorrowFold (denseInd D k) (denseW D k true)).2 i j ↔
          (maskBorrowFold (denseInd D k) (denseW D k true)).2 j i := by
        rw [hM i j, hM j i]
        tauto
      exact if_congr hcond rfl rfl
  · unfold diffmapSparse
    rw [he]
    rfl
  · have hW0 := sparseW0_symm pattern D e hD hpat
    intro i j
    unfold gaussSparseW
    rw [borrowFold_eq (sparseInd e) (sparseW0 pattern D e) hW0 i j,
      borrowFold_eq (sparseInd e) (sparseW0 pattern D e) hW0 j i]
    exact hW0 i j

/-- Concrete evaluation of the sparse extraction on the squared C1 witness
distances with `k = 2`. -/
lemma c1_extraction_eval :
    get_indices_distances_from_sparse_matrix c1pat (fun i j => (c1D i j) ^ 2) 2 =
      some c1e := by
  have h0 : get_indices_row c1pat (fun i j => (c1D i j) ^ 2) 2 0 =
      some (([0, 1] : List ℤ), ([0, 1] : List ℚ)) := rfl
  have h1 : get_indices_row c1pat (fun i j => (c1D i j) ^ 2) 2 1 =
      some (([1, 0] : List ℤ), ([0, 1] : List ℚ)) := rfl
  have hs : ∀ i, (get_indices_row c1pat (fun i j => (c1D i j) ^ 2) 2 i).isSome := by
    intro i
    fin_cases i <;> rfl
  rw [get_indices_distances_from_sparse_matrix, dif_pos hs]
  congr 1
  funext i
  fin_cases i
  · simp only [h0, Option.get_some, c1e]
    rfl
  · simp only [h1, Option.get_some, c1e]
    rfl

/-- C1 witness: the hypotheses hold for the concrete symmetric inputs, and the
symmetry conclusions are instantiated there on both code paths. -/
theorem gauss_connectivities_symmetric_witness :
    (∀ i j, c1D i j = c1D j i) ∧
    (∀ i j : Fin 2, j ∈ c1pat i ↔ i ∈ c1pat j) ∧
    get_indices_distances_from_sparse_matrix c1pat
      (fun i j => (c1D i j) ^ 2) 2 = some c1e ∧
    diffmapDense c1D 2 true 0 1 = diffmapDense c1D 2 true 1 0 ∧
    diffmapDense c1D 2 false 0 1 = diffmapDense c1D 2 false 1 0 ∧
    diffmapSparse c1pat c1D 2 = some (gaussSparseW c1pat c1D c1e) ∧
    gaussSparseW c1pat c1D c1e 0 1 = gaussSparseW c1pat c1D c1e 1 0 := by
  have hD : ∀ i j, c1D i j = c1D j i := by decide
  have hpat : ∀ i j : Fin 2, j ∈ c1pat i ↔ i ∈ c1pat j := by decide
  obtain ⟨hdense, hmap, hsymW⟩ :=
    gauss_connectivities_symmetric c1D c1pat 2 c1e hD hpat c1_extraction_eval
  exact ⟨hD, hpat, c1_extraction_eval, hdense true 0 1, hdense false 0 1,
    hmap, hsymW 0 1⟩
